import Mathlib

set_option maxRecDepth 8192

/-!
Verification of the `event` pub/sub bus (`src/event.h`, richer variant in the
unnamed header): the batch-ordering pipeline (`count_sort`, `radix`,
`multithreaded_radix`), the `EventProcessor` queue/handler-table model and the
`MultiEventManager` coordinator.  Sequence numbers and handler identities are
`size_t` values, modelled as `Nat`; events are heap objects, modelled by an
abstract payload together with their type id.
-/

namespace EventBus

/-! ### Reference stable sort (spec side)

The spec's "reference comparison sort on the sequence numbers" is the stable
insertion sort below, parametrised by a `Nat`-valued key. -/

/-- Insert `x` in front of the first element whose key is not smaller;
equal-key elements already in the list stay in front of `x` (stability). -/
def insertBy (κ : α → Nat) (x : α) : List α → List α
  | [] => [x]
  | y :: ys => if κ x ≤ κ y then x :: y :: ys else y :: insertBy κ x ys

/-- Stable insertion sort by the key `κ`. -/
def insortBy (κ : α → Nat) : List α → List α
  | [] => []
  | x :: xs => insertBy κ x (insortBy κ xs)

/-- Modelled from the spec: the reference comparison sort on sequence
numbers, event payloads paired with their `size_t` sequence number. -/
def insortSeq (l : List (α × Nat)) : List (α × Nat) :=
  insortBy Prod.snd l

theorem mem_insertBy {κ : α → Nat} {x a : α} {l : List α} :
    a ∈ insertBy κ x l ↔ a = x ∨ a ∈ l := by
  induction l with
  | nil => simp [insertBy]
  | cons y ys ih =>
    simp only [insertBy]
    split
    · simp
    · simp [ih]
      tauto

theorem mem_insortBy {κ : α → Nat} {a : α} {l : List α} :
    a ∈ insortBy κ l ↔ a ∈ l := by
  induction l with
  | nil => simp [insortBy]
  | cons x xs ih => simp [insortBy, mem_insertBy, ih]

theorem pairwise_insertBy {κ : α → Nat} {x : α} {l : List α}
    (h : l.Pairwise (fun a b => κ a ≤ κ b)) :
    (insertBy κ x l).Pairwise (fun a b => κ a ≤ κ b) := by
  induction l with
  | nil => simp [insertBy]
  | cons y ys ih =>
    rcases List.pairwise_cons.mp h with ⟨hy, hys⟩
    simp only [insertBy]
    split
    · rename_i hxy
      refine List.pairwise_cons.mpr ⟨?_, h⟩
      intro b hb
      rcases List.mem_cons.mp hb with heq | hb
      · subst heq; exact hxy
      · exact Nat.le_trans hxy (hy b hb)
    · rename_i hxy
      refine List.pairwise_cons.mpr ⟨?_, ih hys⟩
      intro b hb
      rcases mem_insertBy.mp hb with heq | hb
      · subst heq; exact Nat.le_of_lt (Nat.lt_of_not_le hxy)
      · exact hy b hb

theorem pairwise_insortBy (κ : α → Nat) (l : List α) :
    (insortBy κ l).Pairwise (fun a b => κ a ≤ κ b) := by
  induction l with
  | nil => simp [insortBy]
  | cons x xs ih => exact pairwise_insertBy ih

theorem filter_insertBy (κ : α → Nat) (x : α) (l : List α) (k : Nat) :
    (insertBy κ x l).filter (fun a => κ a = k)
      = if κ x = k then x :: l.filter (fun a => κ a = k)
        else l.filter (fun a => κ a = k) := by
  induction l with
  | nil =>
    by_cases hx : κ x = k <;> simp [insertBy, List.filter_cons, hx]
  | cons y ys ih =>
    simp only [insertBy]
    split
    · rename_i hxy
      by_cases hx : κ x = k <;> simp [List.filter_cons, hx]
    · rename_i hxy
      have hyx : κ y < κ x := Nat.lt_of_not_le hxy
      by_cases hx : κ x = k
      · have hy : ¬ (κ y = k) := by omega
        simp [List.filter_cons, hx, hy, ih]
      · by_cases hy : κ y = k <;> simp [List.filter_cons, hx, hy, ih]

theorem filter_insortBy (κ : α → Nat) (l : List α) (k : Nat) :
    (insortBy κ l).filter (fun a => κ a = k) = l.filter (fun a => κ a = k) := by
  induction l with
  | nil => simp [insortBy]
  | cons x xs ih =>
    simp only [insortBy, filter_insertBy, ih]
    by_cases hx : κ x = k <;> simp [List.filter_cons, hx]

/-- Two lists sorted by `κ` with identical per-key filters are equal. -/
theorem sorted_filter_ext (κ : α → Nat) :
    ∀ (s t : List α), s.Pairwise (fun a b => κ a ≤ κ b) →
    t.Pairwise (fun a b => κ a ≤ κ b) →
    (∀ k, s.filter (fun a => κ a = k) = t.filter (fun a => κ a = k)) →
    s = t := by
  intro s
  induction s with
  | nil =>
    intro t _ _ hf
    cases t with
    | nil => rfl
    | cons y ys =>
      have h := hf (κ y)
      simp [List.filter_cons] at h
  | cons x xs ih =>
    intro t hs ht hf
    cases t with
    | nil =>
      have h := hf (κ x)
      simp [List.filter_cons] at h
    | cons y ys =>
      rcases List.pairwise_cons.mp hs with ⟨hx, hxs⟩
      rcases List.pairwise_cons.mp ht with ⟨hy, hys⟩
      have hkxy : κ x = κ y := by
        have hxmem : x ∈ (y :: ys).filter (fun a => κ a = κ x) := by
          rw [← hf (κ x)]
          simp [List.mem_filter]
        have hymem : y ∈ (x :: xs).filter (fun a => κ a = κ y) := by
          rw [hf (κ y)]
          simp [List.mem_filter]
        have h1 : κ y ≤ κ x := by
          rcases List.mem_cons.mp (List.mem_filter.mp hxmem).1 with heq | hmem
          · rw [heq]
          · exact hy x hmem
        have h2 : κ x ≤ κ y := by
          rcases List.mem_cons.mp (List.mem_filter.mp hymem).1 with heq | hmem
          · rw [heq]
          · exact hx y hmem
        omega
      have e1 : (x :: xs).filter (fun a => κ a = κ x)
          = x :: xs.filter (fun a => κ a = κ x) := by
        simp [List.filter_cons]
      have e2 : (y :: ys).filter (fun a => κ a = κ x)
          = y :: ys.filter (fun a => κ a = κ x) := by
        simp [List.filter_cons, hkxy.symm]
      have hheads := hf (κ x)
      rw [e1, e2] at hheads
      have hxy : x = y := by
        injection hheads
      have htails : xs.filter (fun a => κ a = κ x) = ys.filter (fun a => κ a = κ x) := by
        injection hheads
      subst hxy
      refine congrArg (x :: ·) (ih ys hxs hys ?_)
      intro k
      by_cases hk : k = κ x
      · subst hk
        exact htails
      · have h1 := hf k
        have e3 : (x :: xs).filter (fun a => κ a = k) = xs.filter (fun a => κ a = k) := by
          simp only [List.filter_cons]
          rw [if_neg (by simp; omega)]
        have e4 : (x :: ys).filter (fun a => κ a = k) = ys.filter (fun a => κ a = k) := by
          simp only [List.filter_cons]
          rw [if_neg (by simp; omega)]
        rw [e3, e4] at h1
        exact h1

theorem insertBy_congr (κ₁ κ₂ : α → Nat) (x : α) (l : List α)
    (hx : κ₁ x = κ₂ x) (h : ∀ a ∈ l, κ₁ a = κ₂ a) :
    insertBy κ₁ x l = insertBy κ₂ x l := by
  induction l with
  | nil => rfl
  | cons y ys ih =>
    have hy : κ₁ y = κ₂ y := h y (by simp)
    simp only [insertBy, hx, hy]
    split
    · rfl
    · rw [ih (fun a ha => h a (List.mem_cons_of_mem _ ha))]

theorem insortBy_congr (κ₁ κ₂ : α → Nat) (l : List α)
    (h : ∀ a ∈ l, κ₁ a = κ₂ a) : insortBy κ₁ l = insortBy κ₂ l := by
  induction l with
  | nil => rfl
  | cons x xs ih =>
    have htail : ∀ a ∈ xs, κ₁ a = κ₂ a := fun a ha => h a (List.mem_cons_of_mem _ ha)
    simp only [insortBy, ih htail]
    exact insertBy_congr κ₁ κ₂ x _ (h x (by simp))
      (fun a ha => htail a (mem_insortBy.mp ha))

theorem insortBy_of_const (κ : α → Nat) (l : List α) (c : Nat)
    (h : ∀ a ∈ l, κ a = c) : insortBy κ l = l := by
  induction l with
  | nil => rfl
  | cons x xs ih =>
    have hxs : insortBy κ xs = xs := ih (fun a ha => h a (List.mem_cons_of_mem _ ha))
    simp only [insortBy, hxs]
    cases xs with
    | nil => rfl
    | cons y ys =>
      simp only [insertBy]
      rw [if_pos]
      rw [h x (by simp), h y (by simp)]

/-! ### `count_sort` (source: `count_sort<T, N>`)

The source routine sorts `std::vector<std::pair<T, size_t>>` stably by the
base-`N` digit `(p.second / exp) % N`: a counting pass over `count[N]`, an
in-place prefix-sum pass, and a placement pass walking the input from the last
element down, writing `output[count[digit]-1]` and decrementing the counter. -/

/-- The digit `(p.second / exp) % N` used by `count_sort`. -/
def dg (N exp : Nat) (p : α × Nat) : Nat := p.2 / exp % N

/-- Number of elements of `l` with digit `d` (proof-side abbreviation). -/
def cnt (N exp d : Nat) (l : List (α × Nat)) : Nat :=
  (l.filter (fun p => dg N exp p = d)).length

/-- First loop of `count_sort`: `count[(input[i].second / exp) % N]++` over the
zero-initialised `size_t count[N] = {0}`. -/
def bumpCounts (N exp : Nat) (l : List (α × Nat)) : List Nat :=
  l.foldl (fun c p => c.set (dg N exp p) (c.getD (dg N exp p) 0 + 1))
    (List.replicate N 0)

/-- Second loop: `for i in [1, N): count[i] += count[i-1]`, turning the counts
into inclusive prefix sums; modelled with a running accumulator. -/
def psGo (acc : Nat) : List Nat → List Nat
  | [] => []
  | x :: xs => (acc + x) :: psGo (acc + x) xs

def psums (c : List Nat) : List Nat := psGo 0 c

/-- Third loop: `for i = input.size(); i > 0; i--` places `input[i-1]` at
`output[count[digit]-1]` and decrements the counter; it walks the input from
the back, so this recursion consumes the reversed input. -/
def placeLoop (N exp : Nat) :
    List (α × Nat) → List Nat → List (Option (α × Nat)) → List (Option (α × Nat))
  | [], _, out => out
  | x :: xs, c, out =>
    placeLoop N exp xs
      (c.set (dg N exp x) (c.getD (dg N exp x) 0 - 1))
      (out.set (c.getD (dg N exp x) 0 - 1) (some x))

/-- `count_sort<T, N>`: the output buffer is caller-allocated with the input's
size; unwritten slots are modelled as `none`. -/
def count_sort (N exp : Nat) (l : List (α × Nat)) : List (Option (α × Nat)) :=
  placeLoop N exp l.reverse (psums (bumpCounts N exp l))
    (List.replicate l.length none)

/-- `count_sort` with the output buffer read back as a plain list. -/
def countSortL (N exp : Nat) (l : List (α × Nat)) : List (α × Nat) :=
  (count_sort N exp l).filterMap id

/-- Sum of `f 0 + f 1 + ... + f (d-1)` (proof-side abbreviation). -/
def sumBelow (f : Nat → Nat) : Nat → Nat
  | 0 => 0
  | d + 1 => sumBelow f d + f d

theorem dg_lt (N exp : Nat) (hN : 0 < N) (p : α × Nat) : dg N exp p < N :=
  Nat.mod_lt _ hN

theorem cnt_cons (N exp d : Nat) (x : α × Nat) (xs : List (α × Nat)) :
    cnt N exp d (x :: xs)
      = if dg N exp x = d then cnt N exp d xs + 1 else cnt N exp d xs := by
  simp only [cnt, List.filter_cons]
  split
  · rename_i h
    rw [if_pos (by simpa using h)]
    rfl
  · rename_i h
    rw [if_neg (by simpa using h)]

theorem cnt_reverse (N exp d : Nat) (l : List (α × Nat)) :
    cnt N exp d l.reverse = cnt N exp d l := by
  simp [cnt, List.filter_reverse]

theorem getD_set_self {β : Type _} {l : List β} {i : Nat} {v dflt : β}
    (h : i < l.length) : (l.set i v).getD i dflt = v := by
  simp [List.getD_eq_getElem?_getD, List.getElem?_set_self h]

theorem getD_set_ne {β : Type _} {l : List β} {i j : Nat} {v dflt : β}
    (h : i ≠ j) : (l.set i v).getD j dflt = l.getD j dflt := by
  simp [List.getD_eq_getElem?_getD, List.getElem?_set_ne h]

theorem bumpCounts_go (N exp : Nat) (l : List (α × Nat)) :
    ∀ (c : List Nat), c.length = N →
      ((l.foldl (fun c p => c.set (dg N exp p) (c.getD (dg N exp p) 0 + 1)) c).length = N)
      ∧ (∀ d, d < N →
        (l.foldl (fun c p => c.set (dg N exp p) (c.getD (dg N exp p) 0 + 1)) c).getD d 0
          = c.getD d 0 + cnt N exp d l) := by
  induction l with
  | nil =>
    intro c hc
    refine ⟨hc, ?_⟩
    intro d _
    simp [cnt]
  | cons x xs ih =>
    intro c hc
    have hc' : (c.set (dg N exp x) (c.getD (dg N exp x) 0 + 1)).length = N := by
      simpa using hc
    rcases ih _ hc' with ⟨hlen, hval⟩
    refine ⟨hlen, ?_⟩
    intro d hd
    simp only [List.foldl_cons]
    rw [hval d hd, cnt_cons]
    by_cases hdg : dg N exp x = d
    · subst hdg
      rw [getD_set_self (by rw [hc]; exact dg_lt N exp (by omega) x), if_pos rfl]
      omega
    · rw [getD_set_ne hdg, if_neg hdg]

theorem length_bumpCounts (N exp : Nat) (l : List (α × Nat)) :
    (bumpCounts N exp l).length = N :=
  (bumpCounts_go N exp l _ (by simp)).1

theorem getD_bumpCounts (N exp : Nat) (l : List (α × Nat)) (d : Nat) (hd : d < N) :
    (bumpCounts N exp l).getD d 0 = cnt N exp d l := by
  have h := (bumpCounts_go N exp l (List.replicate N 0) (by simp)).2 d hd
  unfold bumpCounts
  rw [h]
  simp [List.getD_eq_getElem?_getD, List.getElem?_replicate, hd]

theorem length_psGo (acc : Nat) (c : List Nat) : (psGo acc c).length = c.length := by
  induction c generalizing acc with
  | nil => rfl
  | cons x xs ih => simp [psGo, ih]

theorem sumBelow_cons (x : Nat) (xs : List Nat) (n : Nat) :
    sumBelow (fun i => (x :: xs).getD i 0) (n + 1)
      = x + sumBelow (fun i => xs.getD i 0) n := by
  induction n with
  | zero => simp [sumBelow]
  | succ n ih =>
    show sumBelow (fun i => (x :: xs).getD i 0) (n + 1) + (x :: xs).getD (n + 1) 0 = _
    rw [ih]
    simp [sumBelow]
    omega

theorem getD_psGo (c : List Nat) :
    ∀ (acc d : Nat), d < c.length →
      (psGo acc c).getD d 0 = acc + sumBelow (fun i => c.getD i 0) (d + 1) := by
  induction c with
  | nil => intro acc d hd; simp at hd
  | cons x xs ih =>
    intro acc d hd
    cases d with
    | zero => simp [psGo, sumBelow]
    | succ d =>
      have hd' : d < xs.length := by simpa using hd
      simp only [psGo, List.getD_cons_succ]
      rw [ih (acc + x) d hd', sumBelow_cons]
      omega

theorem getD_psums (c : List Nat) (d : Nat) (hd : d < c.length) :
    (psums c).getD d 0 = sumBelow (fun i => c.getD i 0) (d + 1) := by
  rw [psums, getD_psGo c 0 d hd]
  omega

theorem sumBelow_congr (f g : Nat → Nat) (n : Nat) (h : ∀ i, i < n → f i = g i) :
    sumBelow f n = sumBelow g n := by
  induction n with
  | zero => rfl
  | succ n ih =>
    show sumBelow f n + f n = sumBelow g n + g n
    rw [ih (fun i hi => h i (by omega)), h n (by omega)]

theorem sumBelow_mono (f : Nat → Nat) {a b : Nat} (h : a ≤ b) :
    sumBelow f a ≤ sumBelow f b := by
  induction b with
  | zero => simp_all [sumBelow]
  | succ b ih =>
    rcases Nat.lt_or_ge a (b + 1) with hlt | hge
    · exact Nat.le_trans (ih (by omega)) (Nat.le_add_right _ _)
    · have : a = b + 1 := by omega
      subst this
      exact Nat.le_refl _

theorem sumBelow_cnt (N exp : Nat) (hN : 0 < N) (l : List (α × Nat)) :
    sumBelow (fun d => cnt N exp d l) N = l.length := by
  induction l with
  | nil =>
    have : ∀ n, sumBelow (fun _ => 0) n = 0 := by
      intro n
      induction n with
      | zero => rfl
      | succ n ih => simp [sumBelow, ih]
    simpa [cnt] using this N
  | cons x xs ih =>
    have hstep : sumBelow (fun d => cnt N exp d (x :: xs)) N
        = sumBelow (fun d => cnt N exp d xs) N + 1 := by
      have key : ∀ (M : Nat), dg N exp x < M →
          sumBelow (fun d => cnt N exp d (x :: xs)) M
            = sumBelow (fun d => cnt N exp d xs) M + 1 := by
        intro M
        induction M with
        | zero => intro h; omega
        | succ M ihM =>
          intro h
          show sumBelow (fun d => cnt N exp d (x :: xs)) M + cnt N exp M (x :: xs) = _
          rcases Nat.lt_or_ge (dg N exp x) M with hlt | hge
          · rw [ihM hlt, cnt_cons, if_neg (by omega)]
            show _ = sumBelow (fun d => cnt N exp d xs) M + cnt N exp M xs + 1
            omega
          · have heq : dg N exp x = M := by omega
            rw [cnt_cons, if_pos heq]
            have hsame : sumBelow (fun d => cnt N exp d (x :: xs)) M
                = sumBelow (fun d => cnt N exp d xs) M := by
              apply sumBelow_congr
              intro i hi
              rw [cnt_cons, if_neg (by omega)]
            rw [hsame]
            show _ = sumBelow (fun d => cnt N exp d xs) M + cnt N exp M xs + 1
            omega
      exact key N (dg_lt N exp hN x)
    rw [hstep, ih]
    rfl

theorem getD_append_add {β : Type _} (A B : List β) (d : β) (j : Nat) :
    (A ++ B).getD (A.length + j) d = B.getD j d := by
  induction A with
  | nil => simp
  | cons a A ih => simpa [Nat.succ_add] using ih

/-- Full characterisation of the placement loop: starting from counters
`c[d] = base d + (number of digit-d elements still to place)`, each digit-`d`
element lands at `base d + (its stable rank)`, and no other slot is touched. -/
theorem placeLoop_spec (N exp : Nat) (hN : 0 < N) (base : Nat → Nat) (p0 : α × Nat)
    (hmono : ∀ a b : Nat, a ≤ b → base a ≤ base b) :
    ∀ (r : List (α × Nat)) (c : List Nat) (out : List (Option (α × Nat))),
      c.length = N →
      (∀ d, d < N → c.getD d 0 = base d + cnt N exp d r) →
      (∀ d, d < N → base d + cnt N exp d r ≤ base (d + 1)) →
      base N ≤ out.length →
      (placeLoop N exp r c out).length = out.length
      ∧ (∀ q, (∀ d, d < N → ¬ (base d ≤ q ∧ q < base d + cnt N exp d r)) →
          (placeLoop N exp r c out).getD q none = out.getD q none)
      ∧ (∀ d, d < N → ∀ j, j < cnt N exp d r →
          (placeLoop N exp r c out).getD (base d + j) none
            = some ((r.reverse.filter (fun p => dg N exp p = d)).getD j p0)) := by
  intro r
  induction r with
  | nil =>
    intro c out _ _ _ _
    refine ⟨rfl, fun q _ => rfl, ?_⟩
    intro d _ j hj
    simp [cnt] at hj
  | cons x xs ih =>
    intro c out hc hcval hub hout
    have hd0 : dg N exp x < N := dg_lt N exp hN x
    have hcx : cnt N exp (dg N exp x) (x :: xs) = cnt N exp (dg N exp x) xs + 1 := by
      rw [cnt_cons, if_pos rfl]
    have hcne : ∀ d, d ≠ dg N exp x → cnt N exp d (x :: xs) = cnt N exp d xs := by
      intro d hd
      rw [cnt_cons, if_neg (by omega)]
    have hcmon : ∀ d, cnt N exp d xs ≤ cnt N exp d (x :: xs) := by
      intro d
      rw [cnt_cons]
      split <;> omega
    have hcd0 : c.getD (dg N exp x) 0 = base (dg N exp x) + cnt N exp (dg N exp x) xs + 1 := by
      rw [hcval _ hd0, hcx]
      omega
    have hpos : c.getD (dg N exp x) 0 - 1 = base (dg N exp x) + cnt N exp (dg N exp x) xs := by
      omega
    have hposlt : c.getD (dg N exp x) 0 - 1 < out.length := by
      have h1 := hub _ hd0
      have h2 := hmono (dg N exp x + 1) N (by omega)
      omega
    have hc' : (c.set (dg N exp x) (c.getD (dg N exp x) 0 - 1)).length = N := by
      simpa using hc
    have hcval' : ∀ d, d < N →
        (c.set (dg N exp x) (c.getD (dg N exp x) 0 - 1)).getD d 0
          = base d + cnt N exp d xs := by
      intro d hd
      by_cases hdd : d = dg N exp x
      · subst hdd
        rw [getD_set_self (by rw [hc]; exact hd0), hpos]
      · rw [getD_set_ne (by omega), hcval d hd, hcne d hdd]
    have hub' : ∀ d, d < N → base d + cnt N exp d xs ≤ base (d + 1) := by
      intro d hd
      have := hub d hd
      have := hcmon d
      omega
    have hout' : base N ≤ (out.set (c.getD (dg N exp x) 0 - 1) (some x)).length := by
      simpa using hout
    rcases ih (c.set (dg N exp x) (c.getD (dg N exp x) 0 - 1))
      (out.set (c.getD (dg N exp x) 0 - 1) (some x)) hc' hcval' hub' hout'
      with ⟨ihlen, ihun, ihwr⟩
    refine ⟨?_, ?_, ?_⟩
    · simp only [placeLoop]
      rw [ihlen]
      simp
    · intro q hq
      have hq' : ∀ d, d < N → ¬ (base d ≤ q ∧ q < base d + cnt N exp d xs) := by
        intro d hd hcontra
        exact hq d hd ⟨hcontra.1, Nat.lt_of_lt_of_le hcontra.2 (by have := hcmon d; omega)⟩
      have hqpos : q ≠ c.getD (dg N exp x) 0 - 1 := by
        intro heq
        apply hq _ hd0
        constructor
        · omega
        · omega
      simp only [placeLoop]
      rw [ihun q hq', getD_set_ne (by omega)]
    · intro d hd j hj
      by_cases hdd : d = dg N exp x
      · subst hdd
        rw [hcx] at hj
        have hflt : (x :: xs).reverse.filter (fun p => dg N exp p = dg N exp x)
            = xs.reverse.filter (fun p => dg N exp p = dg N exp x) ++ [x] := by
          rw [List.reverse_cons, List.filter_append]
          simp [List.filter_cons]
        have hlenflt : (xs.reverse.filter (fun p => dg N exp p = dg N exp x)).length
            = cnt N exp (dg N exp x) xs := cnt_reverse N exp _ xs
        rcases Nat.lt_or_ge j (cnt N exp (dg N exp x) xs) with hjlt | hjge
        · simp only [placeLoop]
          rw [ihwr _ hd j hjlt, hflt]
          rw [List.getD_append _ _ _ _ (by omega)]
        · have hjeq : j = cnt N exp (dg N exp x) xs := by omega
          subst hjeq
          have huq : ∀ d', d' < N →
              ¬ (base d' ≤ base (dg N exp x) + cnt N exp (dg N exp x) xs
                 ∧ base (dg N exp x) + cnt N exp (dg N exp x) xs < base d' + cnt N exp d' xs) := by
            intro d' hd' hcontra
            by_cases hdd' : d' = dg N exp x
            · subst hdd'
              omega
            · rcases Nat.lt_or_ge d' (dg N exp x) with hlt | hge
              · have h1 := hub' d' hd'
                have h2 := hmono (d' + 1) (dg N exp x) (by omega)
                omega
              · have hgt : dg N exp x < d' := by omega
                have h1 := hub _ hd0
                have h2 := hmono (dg N exp x + 1) d' (by omega)
                omega
          simp only [placeLoop]
          rw [ihun _ huq]
          rw [show base (dg N exp x) + cnt N exp (dg N exp x) xs
              = c.getD (dg N exp x) 0 - 1 by omega]
          rw [getD_set_self hposlt, hflt]
          have : (xs.reverse.filter (fun p => dg N exp p = dg N exp x)).getD
              ((xs.reverse.filter (fun p => dg N exp p = dg N exp x)).length + 0) p0 = x → True := fun _ => trivial
          rw [show cnt N exp (dg N exp x) xs
              = (xs.reverse.filter (fun p => dg N exp p = dg N exp x)).length + 0 by omega]
          rw [getD_append_add]
          rfl
      · have hj' : j < cnt N exp d xs := by
          rw [hcne d hdd] at hj
          exact hj
        simp only [placeLoop]
        rw [ihwr d hd j hj']
        have hflt : (x :: xs).reverse.filter (fun p => dg N exp p = d)
            = xs.reverse.filter (fun p => dg N exp p = d) := by
          rw [List.reverse_cons, List.filter_append]
          simp [List.filter_cons, show ¬ (dg N exp x = d) by omega]
        rw [hflt]

theorem list_ext_getD {β : Type _} (dflt : β) :
    ∀ (s t : List β), s.length = t.length → (∀ q, s.getD q dflt = t.getD q dflt) →
      s = t := by
  intro s
  induction s with
  | nil =>
    intro t hlen _
    cases t with
    | nil => rfl
    | cons y ys => simp at hlen
  | cons x xs ih =>
    intro t hlen hq
    cases t with
    | nil => simp at hlen
    | cons y ys =>
      have h0 := hq 0
      simp at h0
      refine h0 ▸ congrArg (x :: ·) (ih ys (by simpa using hlen) ?_)
      intro q
      exact hq (q + 1)

theorem getD_of_le {β : Type _} {l : List β} {q : Nat} {dflt : β}
    (h : l.length ≤ q) : l.getD q dflt = dflt := by
  simp [List.getD_eq_getElem?_getD, List.getElem?_eq_none h]

theorem getD_lt_map_some {β : Type _} (L : List β) (q : Nat) (p0 : β)
    (h : q < L.length) : (L.map some).getD q none = some (L.getD q p0) := by
  simp [List.getD_eq_getElem?_getD, List.getElem?_eq_getElem h,
    List.getElem?_map]

theorem length_flatMap_range {β : Type _} (g : Nat → List β) (K : Nat) :
    ((List.range K).flatMap g).length = sumBelow (fun i => (g i).length) K := by
  induction K with
  | zero => rfl
  | succ K ih =>
    rw [List.range_succ, List.flatMap_append, List.length_append, ih]
    simp [sumBelow]

theorem getD_flatMap_range {β : Type _} (g : Nat → List β) (b0 : β) :
    ∀ (K d j : Nat), d < K → j < (g d).length →
      ((List.range K).flatMap g).getD (sumBelow (fun i => (g i).length) d + j) b0
        = (g d).getD j b0 := by
  intro K
  induction K with
  | zero => intro d j hd _; omega
  | succ K ih =>
    intro d j hd hj
    rw [List.range_succ, List.flatMap_append]
    rcases Nat.lt_or_ge d K with hlt | hge
    · have hin : sumBelow (fun i => (g i).length) d + j
          < ((List.range K).flatMap g).length := by
        rw [length_flatMap_range]
        have h1 : sumBelow (fun i => (g i).length) d + j
            < sumBelow (fun i => (g i).length) (d + 1) := by
          simp [sumBelow]
          omega
        exact Nat.lt_of_lt_of_le h1 (sumBelow_mono _ (by omega))
      rw [List.getD_append _ _ _ _ hin]
      exact ih d j hlt hj
    · have hd' : d = K := by omega
      subst hd'
      have hlen : ((List.range d).flatMap g).length = sumBelow (fun i => (g i).length) d :=
        length_flatMap_range g d
      rw [← hlen, getD_append_add]
      simp [hj]

theorem sumBelow_partition (f : Nat → Nat) :
    ∀ (K q : Nat), q < sumBelow f K →
      ∃ d, d < K ∧ sumBelow f d ≤ q ∧ q < sumBelow f (d + 1) := by
  intro K
  induction K with
  | zero => intro q hq; simp [sumBelow] at hq
  | succ K ih =>
    intro q hq
    rcases Nat.lt_or_ge q (sumBelow f K) with hlt | hge
    · rcases ih q hlt with ⟨d, hd, h1, h2⟩
      exact ⟨d, by omega, h1, h2⟩
    · exact ⟨K, by omega, hge, hq⟩

theorem flatMap_range_nil {β : Type _} (K : Nat) :
    (List.range K).flatMap (fun _ => ([] : List β)) = [] := by
  induction K with
  | zero => rfl
  | succ K ih => rw [List.range_succ, List.flatMap_append, ih]; rfl

/-- `count_sort` fills the output buffer with exactly the stable grouping of
the input by digit: all digit-0 elements in input order, then digit-1, ... -/
theorem count_sort_eq (N exp : Nat) (hN : 0 < N) (l : List (α × Nat)) :
    count_sort N exp l
      = ((List.range N).flatMap (fun d => l.filter (fun p => dg N exp p = d))).map some := by
  cases l with
  | nil =>
    unfold count_sort
    simp only [List.reverse_nil, placeLoop, List.length_nil, List.replicate]
    rw [show (fun (d : Nat) => List.filter (fun p => decide (dg N exp p = d)) ([] : List (α × Nat)))
        = fun _ => ([] : List (α × Nat)) by funext d; simp]
    rw [flatMap_range_nil]
    rfl
  | cons x0 l' =>
    have hbase_mono : ∀ a b : Nat, a ≤ b →
        sumBelow (fun i => cnt N exp i (x0 :: l')) a
          ≤ sumBelow (fun i => cnt N exp i (x0 :: l')) b :=
      fun a b h => sumBelow_mono _ h
    have hclen : (psums (bumpCounts N exp (x0 :: l'))).length = N := by
      rw [psums, length_psGo, length_bumpCounts]
    have hcval : ∀ d, d < N → (psums (bumpCounts N exp (x0 :: l'))).getD d 0
        = sumBelow (fun i => cnt N exp i (x0 :: l')) d + cnt N exp d (x0 :: l').reverse := by
      intro d hd
      rw [getD_psums _ _ (by rw [length_bumpCounts]; exact hd)]
      rw [sumBelow_congr (fun i => (bumpCounts N exp (x0 :: l')).getD i 0)
        (fun i => cnt N exp i (x0 :: l')) (d + 1)
        (fun i hi => getD_bumpCounts N exp _ i (by omega))]
      rw [cnt_reverse]
      simp [sumBelow]
    have hub : ∀ d, d < N →
        sumBelow (fun i => cnt N exp i (x0 :: l')) d + cnt N exp d (x0 :: l').reverse
          ≤ sumBelow (fun i => cnt N exp i (x0 :: l')) (d + 1) := by
      intro d _
      rw [cnt_reverse]
      simp [sumBelow]
    have hbaseN : sumBelow (fun i => cnt N exp i (x0 :: l')) N
        ≤ (List.replicate (x0 :: l').length (none : Option (α × Nat))).length := by
      rw [sumBelow_cnt N exp hN, List.length_replicate]
    rcases placeLoop_spec N exp hN (sumBelow (fun i => cnt N exp i (x0 :: l'))) x0
      hbase_mono (x0 :: l').reverse (psums (bumpCounts N exp (x0 :: l')))
      (List.replicate (x0 :: l').length none) hclen hcval hub hbaseN
      with ⟨hlen, _, hwr⟩
    apply list_ext_getD (none : Option (α × Nat))
    · unfold count_sort
      rw [hlen, List.length_replicate, List.length_map, length_flatMap_range]
      exact (sumBelow_cnt N exp hN (x0 :: l')).symm
    · intro q
      rcases Nat.lt_or_ge q (x0 :: l').length with hq | hq
      · rcases sumBelow_partition (fun i => cnt N exp i (x0 :: l')) N q
          (by rw [sumBelow_cnt N exp hN]; exact hq) with ⟨d, hd, h1, h2⟩
        have hj : q - sumBelow (fun i => cnt N exp i (x0 :: l')) d
            < cnt N exp d (x0 :: l').reverse := by
          rw [cnt_reverse]
          simp [sumBelow] at h2
          omega
        have hmain := hwr d hd _ hj
        rw [show sumBelow (fun i => cnt N exp i (x0 :: l')) d
            + (q - sumBelow (fun i => cnt N exp i (x0 :: l')) d) = q by omega] at hmain
        unfold count_sort
        rw [hmain, List.reverse_reverse]
        have hrhslen : ((List.range N).flatMap
            (fun d => (x0 :: l').filter (fun p => dg N exp p = d))).length
              = (x0 :: l').length := by
          rw [length_flatMap_range]
          exact sumBelow_cnt N exp hN (x0 :: l')
        rw [getD_lt_map_some _ _ x0 (by rw [hrhslen]; exact hq)]
        have hflat := getD_flatMap_range
          (fun d => (x0 :: l').filter (fun p => dg N exp p = d)) x0 N d
          (q - sumBelow (fun i => cnt N exp i (x0 :: l')) d) hd
          (by have h2 := hj; rw [cnt_reverse] at h2; exact h2)
        rw [show (fun i => ((x0 :: l').filter (fun p => dg N exp p = i)).length)
            = fun i => cnt N exp i (x0 :: l') from rfl] at hflat
        rw [show sumBelow (fun i => cnt N exp i (x0 :: l')) d
            + (q - sumBelow (fun i => cnt N exp i (x0 :: l')) d) = q by omega] at hflat
        rw [hflat]
      · unfold count_sort
        rw [getD_of_le (by rw [hlen, List.length_replicate]; exact hq)]
        rw [getD_of_le]
        rw [List.length_map, length_flatMap_range]
        rw [show (fun i => ((x0 :: l').filter (fun p => dg N exp p = i)).length)
            = fun i => cnt N exp i (x0 :: l') from rfl]
        rw [sumBelow_cnt N exp hN]
        exact hq

/-- Read back through `filterMap id`, `count_sort` is the stable one-digit
bucket grouping. -/
theorem countSortL_eq (N exp : Nat) (hN : 0 < N) (l : List (α × Nat)) :
    countSortL N exp l
      = (List.range N).flatMap (fun d => l.filter (fun p => dg N exp p = d)) := by
  rw [countSortL, count_sort_eq N exp hN, List.filterMap_map]
  exact List.filterMap_some _

/-! ### `radix` (source: `radix<T, N>` and `max_val<T>`) -/

/-- `max_val<T>`: `max_val = max_val < v.second ? v.second : max_val` over the
input, starting from `0`. -/
def max_val (l : List (α × Nat)) : Nat :=
  l.foldl (fun m v => if m < v.2 then v.2 else m) 0

/-- The `while (max_num / (size_t)std::pow(N, iterations))` loop of
`radix<T, N>`, alternating the two equal-sized buffers (modelled by value
passing; `count_sort` fully overwrites the output buffer).  The C++ loop
performs at most `max_num + 1` tests when `N ≥ 2`, so that much fuel is
sufficient (proved below); the fuel argument only bounds the iteration count. -/
def radixGo (N mx : Nat) : Nat → Nat → List (α × Nat) → List (α × Nat)
  | 0, _, cur => cur
  | fuel + 1, it, cur =>
    if mx / N ^ it = 0 then cur
    else radixGo N mx fuel (it + 1) (countSortL N (N ^ it) cur)

/-- `radix<T, N>`: compute the maximum, then run LSD passes while digits
remain. -/
def radix (N : Nat) (l : List (α × Nat)) : List (α × Nat) :=
  radixGo N (max_val l) (max_val l + 1) 0 l

theorem max_val_go_ge (l : List (α × Nat)) :
    ∀ (m : Nat),
      m ≤ l.foldl (fun m v => if m < v.2 then v.2 else m) m
      ∧ ∀ p ∈ l, p.2 ≤ l.foldl (fun m v => if m < v.2 then v.2 else m) m := by
  induction l with
  | nil => intro m; exact ⟨Nat.le_refl m, by simp⟩
  | cons x xs ih =>
    intro m
    rcases ih (if m < x.2 then x.2 else m) with ⟨h1, h2⟩
    have hm : m ≤ if m < x.2 then x.2 else m := by split <;> omega
    have hx : x.2 ≤ if m < x.2 then x.2 else m := by split <;> omega
    refine ⟨Nat.le_trans hm h1, ?_⟩
    intro p hp
    rcases List.mem_cons.mp hp with heq | hmem
    · subst heq
      exact Nat.le_trans hx h1
    · exact h2 p hmem

theorem max_val_ge (l : List (α × Nat)) : ∀ p ∈ l, p.2 ≤ max_val l :=
  (max_val_go_ge l 0).2

theorem max_val_eq_zero {l : List (α × Nat)} (h : max_val l = 0) :
    ∀ p ∈ l, p.2 = 0 := by
  intro p hp
  have := max_val_ge l p hp
  omega

/-- `n % (M * N)` splits into the base-`N` digit at weight `M` plus `n % M`. -/
theorem mod_mul_split (n M N : Nat) (hM : 0 < M) (hN : 0 < N) :
    n % (M * N) = M * (n / M % N) + n % M := by
  have hrem : M * (n / M % N) + n % M < M * N := by
    have h1 : n / M % N < N := Nat.mod_lt _ hN
    have h2 : n % M < M := Nat.mod_lt _ hM
    have h3 : M * (n / M % N) ≤ M * (N - 1) := Nat.mul_le_mul_left _ (by omega)
    have h4 : M * (N - 1) + M = M * N := by
      have : M * (N - 1) + M = M * (N - 1 + 1) := by ring
      rw [this, Nat.sub_add_cancel hN]
    omega
  have hdecomp : n = M * N * (n / (M * N)) + (M * (n / M % N) + n % M) := by
    have e1 : n = M * (n / M) + n % M := (Nat.div_add_mod n M).symm
    have e2 : n / M = N * (n / M / N) + n / M % N := (Nat.div_add_mod (n / M) N).symm
    have e3 : n / M / N = n / (M * N) := Nat.div_div_eq_div_mul n M N
    calc n = M * (n / M) + n % M := e1
    _ = M * (N * (n / M / N) + n / M % N) + n % M := by rw [← e2]
    _ = M * N * (n / M / N) + (M * (n / M % N) + n % M) := by ring
    _ = M * N * (n / (M * N)) + (M * (n / M % N) + n % M) := by rw [e3]
  calc n % (M * N)
      = (M * (n / M % N) + n % M + (M * N) * (n / (M * N))) % (M * N) := by
        rw [show M * (n / M % N) + n % M + M * N * (n / (M * N))
            = M * N * (n / (M * N)) + (M * (n / M % N) + n % M) by ring, ← hdecomp]
    _ = (M * (n / M % N) + n % M) % (M * N) := Nat.add_mul_mod_self_left _ _ _
    _ = M * (n / M % N) + n % M := Nat.mod_eq_of_lt hrem

theorem pairwise_flatMap_range {β : Type _} (R : β → β → Prop) (g : Nat → List β) :
    ∀ (K : Nat), (∀ d, d < K → (g d).Pairwise R) →
      (∀ d d', d < d' → d' < K → ∀ x ∈ g d, ∀ y ∈ g d', R x y) →
      ((List.range K).flatMap g).Pairwise R := by
  intro K
  induction K with
  | zero => intro _ _; simp
  | succ K ih =>
    intro h1 h2
    rw [List.range_succ, List.flatMap_append]
    rw [List.pairwise_append]
    refine ⟨ih (fun d hd => h1 d (by omega)) (fun d d' hdd hd' => h2 d d' hdd (by omega)), ?_, ?_⟩
    · simpa using h1 K (by omega)
    · intro a ha b hb
      rcases List.mem_flatMap.mp ha with ⟨d, hd, hmem⟩
      have hdK : d < K := List.mem_range.mp hd
      have hbK : b ∈ g K := by simpa using hb
      exact h2 d K hdK (by omega) a hmem b hbK

theorem filter_flatMap_range {β : Type _} (g : Nat → List β) (p : β → Bool) :
    ∀ (K : Nat), ((List.range K).flatMap g).filter p
      = (List.range K).flatMap (fun d => (g d).filter p) := by
  intro K
  induction K with
  | zero => rfl
  | succ K ih =>
    rw [List.range_succ, List.flatMap_append, List.filter_append, ih,
      List.flatMap_append]
    simp

theorem flatMap_eq_nil_of {β γ : Type _} (L : List γ) (f : γ → List β)
    (h : ∀ d ∈ L, f d = []) : L.flatMap f = [] := by
  induction L with
  | nil => rfl
  | cons x xs ih =>
    rw [List.flatMap_cons, h x (by simp), ih (fun d hd => h d (by simp [hd]))]
    rfl

theorem flatMap_range_onehot {β : Type _} (L : List β) :
    ∀ (K j : Nat), j < K →
      (List.range K).flatMap (fun d => if d = j then L else []) = L := by
  intro K
  induction K with
  | zero => intro j hj; omega
  | succ K ih =>
    intro j hj
    rw [List.range_succ, List.flatMap_append]
    rcases Nat.lt_or_ge j K with hlt | hge
    · rw [ih j hlt]
      simp [show ¬ (K = j) by omega]
    · have hjK : j = K := by omega
      subst hjK
      have hnil : (List.range j).flatMap (fun d => if d = j then L else []) = [] := by
        apply flatMap_eq_nil_of
        intro d hd
        have := List.mem_range.mp hd
        simp [show ¬ (d = j) by omega]
      rw [hnil]
      simp

theorem filter_absorb {β : Type _} (p q : β → Bool) (l : List β)
    (h : ∀ a, p a = true → q a = true) : (l.filter q).filter p = l.filter p := by
  rw [List.filter_filter]
  apply List.filter_congr
  intro a _
  cases hp : p a
  · simp [hp]
  · simp [hp, h a hp]

theorem mod_mul_div_mod (n M N : Nat) (hM : 0 < M) (hN : 0 < N) :
    n % (M * N) / M % N = n / M % N := by
  rw [mod_mul_split n M N hM hN, Nat.mul_add_div hM,
    Nat.div_eq_of_lt (Nat.mod_lt _ hM), Nat.add_zero]
  exact Nat.mod_eq_of_lt (Nat.mod_lt _ hN)

/-- One `count_sort` pass by the digit at weight `M` refines a list stably
sorted by `· % M` into one stably sorted by `· % (M * N)`. -/
theorem countSortL_insortBy (N M : Nat) (hN : 2 ≤ N) (hM : 0 < M)
    (l cur : List (α × Nat)) (hcur : cur = insortBy (fun p => p.2 % M) l) :
    countSortL N M cur = insortBy (fun p => p.2 % (M * N)) l := by
  have hN0 : 0 < N := by omega
  have hMN : 0 < M * N := Nat.mul_pos hM hN0
  have hkey : ∀ p : α × Nat, p.2 % (M * N) = M * dg N M p + p.2 % M :=
    fun p => mod_mul_split p.2 M N hM hN0
  rw [countSortL_eq N M hN0 cur]
  apply sorted_filter_ext (fun p : α × Nat => p.2 % (M * N))
  · apply pairwise_flatMap_range
    · intro d _
      have hsc : cur.Pairwise (fun a b => a.2 % M ≤ b.2 % M) := by
        rw [hcur]
        exact pairwise_insortBy _ l
      have hfil : (cur.filter (fun p => dg N M p = d)).Pairwise
          (fun a b => a.2 % M ≤ b.2 % M) :=
        hsc.sublist (List.filter_sublist _)
      refine hfil.imp_of_mem ?_
      intro a b ha hb hab
      have hda : dg N M a = d := by simpa using (List.mem_filter.mp ha).2
      have hdb : dg N M b = d := by simpa using (List.mem_filter.mp hb).2
      simp only [hkey a, hkey b, hda, hdb]
      omega
    · intro d d' hdd hd' x hx y hy
      have hdx : dg N M x = d := by simpa using (List.mem_filter.mp hx).2
      have hdy : dg N M y = d' := by simpa using (List.mem_filter.mp hy).2
      have hxM : x.2 % M < M := Nat.mod_lt _ hM
      have h1 : M * (d + 1) ≤ M * d' := Nat.mul_le_mul_left M (by omega)
      have h2 : M * (d + 1) = M * d + M := by ring
      simp only [hkey x, hkey y, hdx, hdy]
      omega
  · exact pairwise_insortBy _ l
  · intro k
    rw [filter_insortBy]
    have himpl : ∀ a : α × Nat,
        decide (a.2 % (M * N) = k) = true → decide (a.2 % M = k % M) = true := by
      intro a h
      rw [decide_eq_true_eq] at h ⊢
      rw [← h, Nat.mod_mod_of_dvd _ (Dvd.intro N rfl)]
    have himpl2 : ∀ a : α × Nat,
        decide (a.2 % (M * N) = k) = true → decide (dg N M a = k / M % N) = true := by
      intro a h
      rw [decide_eq_true_eq] at h ⊢
      rw [← h, mod_mul_div_mod _ M N hM hN0]
      rfl
    have hfirst : ((List.range N).flatMap
          (fun d => cur.filter (fun p => dg N M p = d))).filter
          (fun p => p.2 % (M * N) = k)
        = cur.filter (fun p => p.2 % (M * N) = k) := by
      rw [filter_flatMap_range]
      have hpiece : ∀ d : Nat, (cur.filter (fun p => dg N M p = d)).filter
            (fun p => p.2 % (M * N) = k)
          = if d = k / M % N then cur.filter (fun p => p.2 % (M * N) = k) else [] := by
        intro d
        by_cases hd : d = k / M % N
        · subst hd
          rw [if_pos rfl]
          exact filter_absorb _ _ cur himpl2
        · rw [if_neg hd]
          rw [List.filter_filter]
          rw [List.filter_eq_nil_iff]
          intro a _
          simp only [Bool.and_eq_true, decide_eq_true_eq, not_and]
          intro hk hdg
          apply hd
          rw [← hdg]
          have h3 := himpl2 a (by rw [decide_eq_true_eq]; exact hk)
          rw [decide_eq_true_eq] at h3
          exact h3
      rw [show (fun d => (cur.filter (fun p => dg N M p = d)).filter
            (fun p => p.2 % (M * N) = k))
          = fun d => if d = k / M % N then
              cur.filter (fun p => p.2 % (M * N) = k) else [] from funext hpiece]
      exact flatMap_range_onehot _ N _ (Nat.mod_lt _ hN0)
    rw [hfirst, hcur,
      ← filter_absorb (fun p : α × Nat => p.2 % (M * N) = k)
        (fun p => p.2 % M = k % M) (insortBy (fun p : α × Nat => p.2 % M) l) himpl,
      filter_insortBy,
      filter_absorb (fun p : α × Nat => p.2 % (M * N) = k)
        (fun p => p.2 % M = k % M) l himpl]

/-- The `while` loop of `radix` turns a list stably sorted by `· % N^it` into
the fully sorted list, provided the fuel exceeds the remaining iteration
count `mx / N^it`. -/
theorem radixGo_correct (N : Nat) (hN : 2 ≤ N) (l : List (α × Nat)) (mx : Nat)
    (hmx : ∀ p ∈ l, p.2 ≤ mx) :
    ∀ (fuel it : Nat) (cur : List (α × Nat)),
      mx / N ^ it < fuel →
      cur = insortBy (fun p => p.2 % N ^ it) l →
      radixGo N mx fuel it cur = insortBy Prod.snd l := by
  intro fuel
  induction fuel with
  | zero => intro it cur h _; exact absurd h (Nat.not_lt_zero _)
  | succ fuel ih =>
    intro it cur hfuel hcur
    simp only [radixGo]
    by_cases hz : mx / N ^ it = 0
    · rw [if_pos hz]
      rw [hcur]
      apply insortBy_congr
      intro p hp
      have hple := hmx p hp
      have hpow : 0 < N ^ it := Nat.pos_pow_of_pos it (by omega)
      have hmxlt : mx < N ^ it := by
        rcases Nat.lt_or_ge mx (N ^ it) with h | h
        · exact h
        · exact absurd hz (by
            have h1 : N ^ it / N ^ it ≤ mx / N ^ it := Nat.div_le_div_right h
            rw [Nat.div_self hpow] at h1
            omega)
      show p.2 % N ^ it = p.2
      exact Nat.mod_eq_of_lt (by omega)
    · rw [if_neg hz]
      apply ih (it + 1)
      · have hdivlt : mx / N ^ (it + 1) < mx / N ^ it := by
          rw [Nat.pow_succ, ← Nat.div_div_eq_div_mul]
          exact Nat.div_lt_self (Nat.pos_of_ne_zero hz) (by omega)
        omega
      · have hstep := countSortL_insortBy N (N ^ it) hN
          (Nat.pos_pow_of_pos it (by omega)) l cur hcur
        rw [Nat.pow_succ]
        exact hstep

/-- `radix<T, N>` computes the stable sort by sequence number (for `N ≥ 2`). -/
theorem radix_eq_insortSeq (N : Nat) (hN : 2 ≤ N) (l : List (α × Nat)) :
    radix N l = insortSeq l := by
  unfold radix insortSeq
  apply radixGo_correct N hN l (max_val l) (max_val_ge l)
  · rw [Nat.pow_zero, Nat.div_one]
    exact Nat.lt_succ_self _
  · refine (insortBy_of_const _ l 0 ?_).symm
    intro p _
    show p.2 % N ^ 0 = 0
    rw [Nat.pow_zero, Nat.mod_one]

/-! ### `multithreaded_radix` (source: `multithreaded_radix<T, N, base>`,
`bit_scan_rv`, bucket split) -/

/-- `bit_scan_rv`: x86 `bsrq`, index of the most significant set bit of a
64-bit value (`precondition bb != 0`), modelled as 64 halving steps. -/
def bsrGo : Nat → Nat → Nat
  | 0, _ => 0
  | fuel + 1, x => if 2 ≤ x then bsrGo fuel (x / 2) + 1 else 0

def bit_scan_rv (x : Nat) : Nat := bsrGo 64 x

/-- The bucket shift `bit_scan_rv(max_num) + 1 - base`: the `int` result is
promoted to `size_t` for the subtraction against the `size_t` template
parameter `base`, so it wraps modulo `2^64`. -/
def shiftAmt (bas mx : Nat) : Nat :=
  (bit_scan_rv mx + 1 + (2 ^ 64 - bas)) % 2 ^ 64

/-- The bucket-filling loop
`buckets[input[i].second >> shift].push_back(input[i])`, modelled as a map
from bucket index to bucket contents. -/
def bucketFold (s : Nat) (l : List (α × Nat)) : Nat → List (α × Nat) :=
  l.foldl (fun B p => fun k => if k = p.2 >>> s then B k ++ [p] else B k)
    (fun _ => [])

/-- `compile_pow(base, exp)`: `rval = base; for (i = 0; i < exp; i++) rval *= base;`
— note it evaluates to `base^(exp+1)`, so `compile_pow(2, 4) = 32`: the bucket
array has 32 entries, of which only the lower 16 are ever addressed. -/
def compile_pow (bas ex : Nat) : Nat :=
  (List.range ex).foldl (fun rval _ => rval * bas) bas

/-- `multithreaded_radix<T, N, base>`: if the maximum sequence number is `0`,
push the payloads through in arrival order; otherwise split into the
`compile_pow(2, base)`-entry bucket array by the high bits of the sequence
number (only indices below `2^base` are ever hit), `radix`-sort each bucket
(the per-bucket worker threads are joined before the concatenation and touch
disjoint buckets, so the fork/join region is modelled by its sequential
result), and concatenate the buckets in index order. -/
def multithreaded_radix (N bas : Nat) (l : List (α × Nat)) : List α :=
  if max_val l = 0 then l.map Prod.fst
  else
    (List.range (compile_pow 2 bas)).flatMap
      (fun k =>
        (radix N (bucketFold (shiftAmt bas (max_val l)) l k)).map Prod.fst)

theorem bucketFold_eq (s : Nat) (l : List (α × Nat)) :
    ∀ k, bucketFold s l k = l.filter (fun p => p.2 >>> s = k) := by
  suffices h : ∀ (l : List (α × Nat)) (B : Nat → List (α × Nat)) (k : Nat),
      (l.foldl (fun B p => fun k => if k = p.2 >>> s then B k ++ [p] else B k) B) k
        = B k ++ l.filter (fun p => p.2 >>> s = k) by
    intro k
    have := h l (fun _ => []) k
    simpa [bucketFold] using this
  intro l
  induction l with
  | nil => intro B k; simp
  | cons x xs ih =>
    intro B k
    simp only [List.foldl_cons]
    rw [ih]
    by_cases hk : k = x.2 >>> s
    · rw [if_pos hk, List.filter_cons, if_pos (by simp [hk])]
      simp
    · rw [if_neg hk, List.filter_cons, if_neg (by simp; omega)]

theorem bsrGo_bounds :
    ∀ (fuel x : Nat), 0 < x → x < 2 ^ fuel →
      2 ^ bsrGo fuel x ≤ x ∧ x < 2 ^ (bsrGo fuel x + 1) := by
  intro fuel
  induction fuel with
  | zero => intro x h1 h2; simp at h2; omega
  | succ fuel ih =>
    intro x h1 h2
    simp only [bsrGo]
    by_cases hx : 2 ≤ x
    · rw [if_pos hx]
      have hy2 : x / 2 < 2 ^ fuel := by
        rw [Nat.pow_succ] at h2
        omega
      rcases ih (x / 2) (by omega) hy2 with ⟨ha, hb⟩
      constructor
      · rw [Nat.pow_succ]
        omega
      · rw [Nat.pow_succ]
        omega
    · rw [if_neg hx]
      have hx1 : x = 1 := by omega
      subst hx1
      simp

theorem bit_scan_rv_bounds {x : Nat} (h1 : 0 < x) (h2 : x < 2 ^ 64) :
    2 ^ bit_scan_rv x ≤ x ∧ x < 2 ^ (bit_scan_rv x + 1) :=
  bsrGo_bounds 64 x h1 h2

theorem shiftRight_mono {a b : Nat} (s : Nat) (h : a ≤ b) : a >>> s ≤ b >>> s := by
  rw [Nat.shiftRight_eq_div_pow, Nat.shiftRight_eq_div_pow]
  exact Nat.div_le_div_right h

theorem max_val_cases (l : List (α × Nat)) :
    max_val l = 0 ∨ ∃ p ∈ l, max_val l = p.2 := by
  suffices h : ∀ (l : List (α × Nat)) (m : Nat),
      l.foldl (fun m v => if m < v.2 then v.2 else m) m = m
      ∨ ∃ p ∈ l, l.foldl (fun m v => if m < v.2 then v.2 else m) m = p.2 by
    exact h l 0
  intro l
  induction l with
  | nil => intro m; exact Or.inl rfl
  | cons x xs ih =>
    intro m
    simp only [List.foldl_cons]
    rcases ih (if m < x.2 then x.2 else m) with heq | ⟨p, hp, hpe⟩
    · rw [heq]
      by_cases hm : m < x.2
      · exact Or.inr ⟨x, by simp, by rw [if_pos hm]⟩
      · exact Or.inl (by rw [if_neg hm])
    · exact Or.inr ⟨p, by simp [hp], hpe⟩

theorem max_val_lt (l : List (α × Nat)) (hw : ∀ p ∈ l, p.2 < 2 ^ 64) :
    max_val l < 2 ^ 64 := by
  rcases max_val_cases l with h | ⟨p, hp, hpe⟩
  · rw [h]
    exact Nat.pos_pow_of_pos 64 (by omega)
  · rw [hpe]
    exact hw p hp

/-- Every element of a drained set whose keys fit in `size_t` lands in one of
the `2^4` buckets (both when the shift is well-defined and when the `size_t`
wraparound makes it at least 64: then everything lands in bucket 0). -/
theorem bucket_lt (l : List (α × Nat)) (hmx : max_val l ≠ 0)
    (hw : ∀ p ∈ l, p.2 < 2 ^ 64) :
    ∀ p ∈ l, p.2 >>> shiftAmt 4 (max_val l) < 2 ^ 4 := by
  intro p hp
  have hmxw : max_val l < 2 ^ 64 := max_val_lt l hw
  rcases bit_scan_rv_bounds (Nat.pos_of_ne_zero hmx) hmxw with ⟨hlo, hhi⟩
  have hm63 : bit_scan_rv (max_val l) < 64 := by
    by_contra hge
    have h2 : (2 : Nat) ^ 64 ≤ 2 ^ bit_scan_rv (max_val l) :=
      Nat.pow_le_pow_right (by omega) (by omega)
    omega
  by_cases hcase : 4 ≤ bit_scan_rv (max_val l) + 1
  · -- the shift is `bit_scan_rv(max) - 3` and the top four bits bound the bucket
    have hs : shiftAmt 4 (max_val l) = bit_scan_rv (max_val l) - 3 := by
      unfold shiftAmt
      rw [show bit_scan_rv (max_val l) + 1 + (2 ^ 64 - 4)
          = 2 ^ 64 + (bit_scan_rv (max_val l) - 3) by omega]
      rw [Nat.add_mod_left]
      exact Nat.mod_eq_of_lt (by omega)
    rw [hs]
    have hple : p.2 ≤ max_val l := max_val_ge l p hp
    have h1 : p.2 >>> (bit_scan_rv (max_val l) - 3)
        ≤ max_val l >>> (bit_scan_rv (max_val l) - 3) :=
      shiftRight_mono _ hple
    have h2 : max_val l >>> (bit_scan_rv (max_val l) - 3) < 2 ^ 4 := by
      rw [Nat.shiftRight_eq_div_pow]
      rw [Nat.div_lt_iff_lt_mul (Nat.pos_pow_of_pos _ (by omega))]
      have hpow : (2 : Nat) ^ 4 * 2 ^ (bit_scan_rv (max_val l) - 3)
          = 2 ^ (bit_scan_rv (max_val l) + 1) := by
        rw [← Nat.pow_add,
          show 4 + (bit_scan_rv (max_val l) - 3) = bit_scan_rv (max_val l) + 1 by omega]
      rw [hpow]
      exact hhi
    omega
  · -- the `size_t` subtraction wraps: the shift is at least 64, bucket 0
    have hs : shiftAmt 4 (max_val l)
        = bit_scan_rv (max_val l) + 1 + (2 ^ 64 - 4) := by
      unfold shiftAmt
      exact Nat.mod_eq_of_lt (by omega)
    have hs64 : 64 ≤ shiftAmt 4 (max_val l) := by
      rw [hs]
      omega
    have hzero : p.2 >>> shiftAmt 4 (max_val l) = 0 := by
      rw [Nat.shiftRight_eq_div_pow]
      apply Nat.div_eq_of_lt
      have h2 : (2 : Nat) ^ 64 ≤ 2 ^ shiftAmt 4 (max_val l) :=
        Nat.pow_le_pow_right (by omega) hs64
      have := hw p hp
      omega
    rw [hzero]
    exact Nat.pos_pow_of_pos 4 (by omega)

/-- The full bucket-then-radix pipeline computes the payloads in stable
sequence-number order, at the instantiation `N = 32`, `base = 4` used by
`move_to_processors`. -/
theorem multithreaded_radix_eq (l : List (α × Nat))
    (hw : ∀ p ∈ l, p.2 < 2 ^ 64) :
    multithreaded_radix 32 4 l = (insortSeq l).map Prod.fst := by
  unfold multithreaded_radix
  by_cases hmx : max_val l = 0
  · rw [if_pos hmx]
    rw [insortSeq, insortBy_of_const Prod.snd l 0 (max_val_eq_zero hmx)]
  · rw [if_neg hmx]
    have hradix : ∀ k : Nat,
        (radix 32 (bucketFold (shiftAmt 4 (max_val l)) l k)).map Prod.fst
          = (insortBy Prod.snd (bucketFold (shiftAmt 4 (max_val l)) l k)).map
              Prod.fst := by
      intro k
      rw [radix_eq_insortSeq 32 (by omega), insortSeq]
    rw [show (fun k => (radix 32 (bucketFold (shiftAmt 4 (max_val l)) l k)).map
          Prod.fst)
        = fun k => (insortBy Prod.snd
            (bucketFold (shiftAmt 4 (max_val l)) l k)).map Prod.fst
        from funext hradix]
    rw [← List.map_flatMap]
    refine congrArg (List.map Prod.fst) ?_
    apply sorted_filter_ext Prod.snd
    · apply pairwise_flatMap_range
      · intro d _
        exact pairwise_insortBy _ _
      · intro d d' hdd _ x hx y hy
        have hx' := mem_insortBy.mp hx
        have hy' := mem_insortBy.mp hy
        rw [bucketFold_eq] at hx' hy'
        have hdx : x.2 >>> shiftAmt 4 (max_val l) = d := by
          simpa using (List.mem_filter.mp hx').2
        have hdy : y.2 >>> shiftAmt 4 (max_val l) = d' := by
          simpa using (List.mem_filter.mp hy').2
        show x.2 ≤ y.2
        by_contra hlt
        push_neg at hlt
        have := shiftRight_mono (shiftAmt 4 (max_val l)) (Nat.le_of_lt hlt)
        omega
    · exact pairwise_insortBy Prod.snd l
    · intro v
      rw [filter_flatMap_range, insortSeq, filter_insortBy]
      have hpiece : ∀ k : Nat,
          (insortBy Prod.snd (bucketFold (shiftAmt 4 (max_val l)) l k)).filter
              (fun a => Prod.snd a = v)
            = if k = v >>> shiftAmt 4 (max_val l) then
                l.filter (fun a => Prod.snd a = v) else [] := by
        intro k
        rw [filter_insortBy, bucketFold_eq]
        by_cases hk : k = v >>> shiftAmt 4 (max_val l)
        · rw [if_pos hk]
          apply filter_absorb
          intro a h
          rw [decide_eq_true_eq] at h ⊢
          rw [h]
          exact hk.symm
        · rw [if_neg hk, List.filter_filter, List.filter_eq_nil_iff]
          intro a _
          simp only [Bool.and_eq_true, decide_eq_true_eq, not_and]
          intro hv hsh
          exact absurd (by rw [← hv]; exact hsh.symm) hk
      rw [show (fun k => (insortBy Prod.snd
            (bucketFold (shiftAmt 4 (max_val l)) l k)).filter
            (fun a => Prod.snd a = v))
          = fun k => if k = v >>> shiftAmt 4 (max_val l) then
              l.filter (fun a => Prod.snd a = v) else [] from funext hpiece]
      by_cases hv : v >>> shiftAmt 4 (max_val l) < 2 ^ 4
      · exact flatMap_range_onehot _ (compile_pow 2 4) _
          (Nat.lt_of_lt_of_le hv (by decide))
      · have hnil : l.filter (fun a => Prod.snd a = v) = [] := by
          rw [List.filter_eq_nil_iff]
          intro a ha
          simp only [decide_eq_true_eq]
          intro hav
          exact hv (hav ▸ bucket_lt l hmx hw a ha)
        rw [hnil]
        apply flatMap_eq_nil_of
        intro d _
        by_cases h : d = v >>> shiftAmt 4 (max_val l) <;> simp [h]

/-! ### Events, handler tables, `EventProcessor`

An event object is its registered type id (`get_id()`) plus a tag standing
for the heap object's identity.  A handler-table entry is the bound handler
object pointer (`get_handler_ptr()`); `exec` invokes the bound member
function, recorded in traces as a `(handler pointer, event tag)` pair. -/

structure Ev where
  eid : Nat
  tag : Nat
deriving DecidableEq

instance : Inhabited Ev := ⟨⟨0, 0⟩⟩

/-- `EventProcessor` state: the local FIFO of shared batches (`events_queue`,
front of the `std::queue` at the head of the list), the parallel FIFO of
counts (`events_size_queue`), and the handler table (`handlers`, one slot per
type id, insertion order preserved).  The producer token carries no state
relevant to the claims. -/
structure Processor where
  events_queue : List (List Ev)
  events_size_queue : List Nat
  handlers : List (List Nat)
deriving DecidableEq

instance : Inhabited Processor := ⟨⟨[], [], []⟩⟩

/-- `EventProcessor::subscribe`:
`handlers[E::id].emplace_back(new EventHandler<T, E>(handler, handler_fun))`. -/
def subscribe (eid hptr : Nat) (p : Processor) : Processor :=
  { p with handlers := p.handlers.set eid (p.handlers.getD eid [] ++ [hptr]) }

/-- `EventProcessor::unsubscribe`: `for (auto grouped_handlers : handlers)`
iterates over by-value copies of the slots, and `std::erase_if` removes the
matching entries from the copy while `delete`ing them.  The member table is
left unchanged; the second component records the freed (`delete`d) entries. -/
def unsubscribe (hptr : Nat) (p : Processor) : Processor × List Nat :=
  (p,
   p.handlers.foldl (fun freed slot => freed ++ slot.filter (fun e => e = hptr)) [])

/-- `EventProcessor::add_events`: push the shared batch and its count. -/
def add_events (p : Processor) (events : List Ev) (num_events : Nat) : Processor :=
  { p with events_queue := p.events_queue ++ [events],
           events_size_queue := p.events_size_queue ++ [num_events] }

/-- One event's dispatch:
`for (auto& handler : handlers[event->get_id()]) handler->exec(event);`. -/
def dispatchEvent (hs : List (List Nat)) (e : Ev) : List (Nat × Nat) :=
  (hs.getD e.eid []).map (fun hptr => (hptr, e.tag))

/-- The inner loop of `process_events`:
`for (size_t i = 0; i < events_size; i++)` over `events[i]`. -/
def dispatchBatch (hs : List (List Nat)) (events : List Ev) (events_size : Nat) :
    List (Nat × Nat) :=
  (List.range events_size).flatMap (fun i => dispatchEvent hs (events.getD i default))

/-- The outer loop of `process_events`: while `events_queue` is nonempty, it
reads `events_queue.back()` and `events_size_queue.back()` (`std::queue::back`
is the most recently pushed element), dispatches that batch, then `pop()`s
both queues — which removes the front element.  Returns the final queues and
the invocation trace. -/
def processGo (hs : List (List Nat)) :
    List (List Ev) → List Nat → List (List Ev) × List Nat × List (Nat × Nat)
  | [], szq => ([], szq, [])
  | b :: rest, szq =>
    let tr := dispatchBatch hs ((b :: rest).getLastD []) (szq.getLastD 0)
    let r := processGo hs rest szq.tail
    (r.1, r.2.1, tr ++ r.2.2)

/-- `EventProcessor::process_events`. -/
def process_events (p : Processor) : Processor × List (Nat × Nat) :=
  let r := processGo p.handlers p.events_queue p.events_size_queue
  ({ p with events_queue := r.1, events_size_queue := r.2.1 }, r.2.2)

/-! ### `MultiEventManager` -/

/-- Coordinator state: `subtracted`, the atomic `event_count`, the intake
`event_queue` of `(event, sequence number)` pairs — one list models the
multi-producer queue's contents in stamped order — and the processors. -/
structure Manager where
  subtracted : Nat
  event_count : Nat
  event_queue : List (Ev × Nat)
  processors : List Processor
deriving DecidableEq

/-- `MultiEventManager::submit`: enqueue
`(event, event_count.fetch_add(1))` with the processor's producer token (the
token only selects the producer sub-queue; the model keeps stamped order). -/
def submit (m : Manager) (processor_id : Nat) (e : Ev) : Manager :=
  let _ := processor_id
  { m with event_queue := m.event_queue ++ [(e, m.event_count)],
           event_count := m.event_count + 1 }

/-- `MultiEventManager::subscribe` (the shared lock is irrelevant in the
sequential model). -/
def msubscribe (m : Manager) (processor_id eid hptr : Nat) : Manager :=
  let p := subscribe eid hptr (m.processors.getD processor_id default)
  { m with processors := m.processors.set processor_id p }

/-- `MultiEventManager::unsubscribe`. -/
def munsubscribe (m : Manager) (processor_id hptr : Nat) : Manager :=
  let p := (unsubscribe hptr (m.processors.getD processor_id default)).1
  { m with processors := m.processors.set processor_id p }

/-- `MultiEventManager::process_events`. -/
def mprocess (m : Manager) (processor_id : Nat) : Manager × List (Nat × Nat) :=
  let r := process_events (m.processors.getD processor_id default)
  ({ m with processors := m.processors.set processor_id r.1 }, r.2)

/-- `MultiEventManager::move_to_processors`: snapshot `event_count`, bulk
dequeue up to `event_count - subtracted` pairs (`try_dequeue_bulk` yields
`min(target, available)` here), order them with
`multithreaded_radix<Event*, 32>`, wrap the ordered pointers as one shared
batch (`create_delete_shared`) and `add_events` it to every processor, then
advance `subtracted` by the number obtained. -/
def move_to_processors (m : Manager) : Manager :=
  let target := m.event_count - m.subtracted
  let event_got := min target m.event_queue.length
  let stored := m.event_queue.take event_got
  let copy_to := multithreaded_radix 32 4 stored
  { m with
    event_queue := m.event_queue.drop event_got,
    processors := m.processors.map (fun p => add_events p copy_to event_got),
    subtracted := m.subtracted + event_got }

/-! ### FIFO-alignment operations (for the queue-pairing invariant) -/

/-- The operations touching the two per-processor FIFOs. -/
inductive POp where
  | add (batch : List Ev) (n : Nat)
  | process

def applyOp (p : Processor) : POp → Processor
  | .add b n => add_events p b n
  | .process => (process_events p).1

def runOps (p : Processor) (ops : List POp) : Processor :=
  ops.foldl applyOp p

/-- Specification-side paired queue: `add_events` appends the pair it was
called with; `process_events` drains everything. -/
def specStep (Q : List (List Ev × Nat)) : POp → List (List Ev × Nat)
  | .add b n => Q ++ [(b, n)]
  | .process => []

def runSpec (Q : List (List Ev × Nat)) (ops : List POp) : List (List Ev × Nat) :=
  ops.foldl specStep Q

theorem processGo_state (hs : List (List Nat)) :
    ∀ (q1 : List (List Ev)) (q2 : List Nat),
      (processGo hs q1 q2).1 = [] ∧ (processGo hs q1 q2).2.1 = q2.drop q1.length := by
  intro q1
  induction q1 with
  | nil => intro q2; exact ⟨rfl, rfl⟩
  | cons b rest ih =>
    intro q2
    rcases ih q2.tail with ⟨h1, h2⟩
    refine ⟨h1, ?_⟩
    show (processGo hs rest q2.tail).2.1 = q2.drop (rest.length + 1)
    rw [h2]
    cases q2 <;> simp

theorem runOps_aligned :
    ∀ (ops : List POp) (p : Processor) (Q : List (List Ev × Nat)),
      p.events_queue = Q.map Prod.fst → p.events_size_queue = Q.map Prod.snd →
      (runOps p ops).events_queue = (runSpec Q ops).map Prod.fst
      ∧ (runOps p ops).events_size_queue = (runSpec Q ops).map Prod.snd := by
  intro ops
  induction ops with
  | nil => intro p Q h1 h2; exact ⟨h1, h2⟩
  | cons op ops ih =>
    intro p Q h1 h2
    show (runOps (applyOp p op) ops).events_queue = _ ∧ _
    cases op with
    | add b n =>
      exact ih (add_events p b n) (Q ++ [(b, n)])
        (by simp [add_events, h1]) (by simp [add_events, h2])
    | process =>
      refine ih _ [] ?_ ?_
      · show (process_events p).1.events_queue = []
        simp [process_events, (processGo_state p.handlers _ _).1]
      · show (process_events p).1.events_size_queue = []
        simp [process_events, (processGo_state p.handlers _ _).2, h1, h2]

/-- When the recorded batch size equals the batch length, the index loop of
`process_events` dispatches the events in index order. -/
theorem dispatchBatch_flatMap (hs : List (List Nat)) (events : List Ev) :
    dispatchBatch hs events events.length = events.flatMap (dispatchEvent hs) := by
  unfold dispatchBatch
  induction events with
  | nil => rfl
  | cons e es ih =>
    rw [show (e :: es).length = es.length + 1 from rfl, List.range_succ_eq_map,
      List.flatMap_cons, List.flatMap_map]
    rw [show (fun i => dispatchEvent hs ((e :: es).getD (Nat.succ i) default))
        = fun i => dispatchEvent hs (es.getD i default) from rfl]
    rw [ih, List.flatMap_cons]
    rfl

/-! ### Claim theorems -/

/-- Claim C3: for every finite list of (event, sequence number) pairs (with
`size_t` sequence numbers), the bucket-partition-then-per-bucket-radix-sort
pipeline `multithreaded_radix` (with its `count_sort`/`radix` helpers, at the
`N = 32`, `base = 4` instantiation used by `move_to_processors`) produces the
events in exactly the order given by a reference comparison sort on the
sequence numbers. -/
theorem C3_pipeline_eq_reference_sort {α : Type} (l : List (α × Nat))
    (hw : ∀ p ∈ l, p.2 < 2 ^ 64) :
    multithreaded_radix 32 4 l = (insortSeq l).map Prod.fst :=
  multithreaded_radix_eq l hw

theorem C3_pipeline_eq_reference_sort_witness :
    (∀ p ∈ [((10 : Nat), (9 : Nat)), (20, 8), (30, 12), (40, 1), (50, 8)],
        p.2 < 2 ^ 64)
    ∧ multithreaded_radix 32 4 [((10 : Nat), (9 : Nat)), (20, 8), (30, 12), (40, 1), (50, 8)]
        = (insortSeq [((10 : Nat), (9 : Nat)), (20, 8), (30, 12), (40, 1), (50, 8)]).map
            Prod.fst :=
  ⟨by decide, C3_pipeline_eq_reference_sort _ (by decide)⟩

/-- Claim C4: for every drained set with nonzero maximum sequence number, the
bucket assignment (shifting each sequence number right by
`bit_scan_rv(max) + 1 - base`, with the `size_t` wraparound of that
subtraction) puts strictly smaller sequence numbers in bucket `k` than in
bucket `k+1`, and concatenating the sorted buckets in bucket order is a
globally sorted sequence. -/
theorem C4_bucket_split_sorted {α : Type} (l : List (α × Nat))
    (_hmx : max_val l ≠ 0) :
    (∀ k : Nat, ∀ a ∈ bucketFold (shiftAmt 4 (max_val l)) l k,
      ∀ b ∈ bucketFold (shiftAmt 4 (max_val l)) l (k + 1), a.2 < b.2)
    ∧ ((List.range (compile_pow 2 4)).flatMap
          (fun k => insortBy Prod.snd
            (bucketFold (shiftAmt 4 (max_val l)) l k))).Pairwise
        (fun a b => a.2 ≤ b.2) := by
  constructor
  · intro k a ha b hb
    rw [bucketFold_eq] at ha hb
    have hka : a.2 >>> shiftAmt 4 (max_val l) = k := by
      simpa using (List.mem_filter.mp ha).2
    have hkb : b.2 >>> shiftAmt 4 (max_val l) = k + 1 := by
      simpa using (List.mem_filter.mp hb).2
    by_contra hle
    push_neg at hle
    have := shiftRight_mono (shiftAmt 4 (max_val l)) hle
    omega
  · apply pairwise_flatMap_range
    · intro d _
      exact pairwise_insortBy _ _
    · intro d d' hdd _ x hx y hy
      have hx' := mem_insortBy.mp hx
      have hy' := mem_insortBy.mp hy
      rw [bucketFold_eq] at hx' hy'
      have hdx : x.2 >>> shiftAmt 4 (max_val l) = d := by
        simpa using (List.mem_filter.mp hx').2
      have hdy : y.2 >>> shiftAmt 4 (max_val l) = d' := by
        simpa using (List.mem_filter.mp hy').2
      show x.2 ≤ y.2
      by_contra hlt
      push_neg at hlt
      have := shiftRight_mono (shiftAmt 4 (max_val l)) (Nat.le_of_lt hlt)
      omega

theorem C4_bucket_split_sorted_witness :
    (max_val [((1 : Nat), (9 : Nat)), (2, 8), (3, 12), (4, 1)] ≠ 0)
    ∧ ((∀ k : Nat, ∀ a ∈ bucketFold
          (shiftAmt 4 (max_val [((1 : Nat), (9 : Nat)), (2, 8), (3, 12), (4, 1)]))
          [((1 : Nat), (9 : Nat)), (2, 8), (3, 12), (4, 1)] k,
        ∀ b ∈ bucketFold
          (shiftAmt 4 (max_val [((1 : Nat), (9 : Nat)), (2, 8), (3, 12), (4, 1)]))
          [((1 : Nat), (9 : Nat)), (2, 8), (3, 12), (4, 1)] (k + 1), a.2 < b.2)
      ∧ ((List.range (compile_pow 2 4)).flatMap
            (fun k => insortBy Prod.snd
              (bucketFold
                (shiftAmt 4 (max_val [((1 : Nat), (9 : Nat)), (2, 8), (3, 12), (4, 1)]))
                [((1 : Nat), (9 : Nat)), (2, 8), (3, 12), (4, 1)] k))).Pairwise
          (fun a b => a.2 ≤ b.2)) :=
  ⟨by decide, C4_bucket_split_sorted _ (by decide)⟩

/-- Claim C7: for every drained set of (event, sequence number) pairs whose
maximum sequence number is `0`, `multithreaded_radix` skips sorting entirely
(the early-return branch) and outputs the events in dequeue order. -/
theorem C7_zero_max_passthrough {α : Type} (N bas : Nat) (l : List (α × Nat))
    (h : max_val l = 0) :
    multithreaded_radix N bas l = l.map Prod.fst := by
  unfold multithreaded_radix
  rw [if_pos h]

theorem C7_zero_max_passthrough_witness :
    (max_val [(Ev.mk 0 5, 0), (Ev.mk 1 7, 0), (Ev.mk 0 6, 0)] = 0)
    ∧ multithreaded_radix 32 4 [(Ev.mk 0 5, 0), (Ev.mk 1 7, 0), (Ev.mk 0 6, 0)]
        = [Ev.mk 0 5, Ev.mk 1 7, Ev.mk 0 6] :=
  ⟨by decide, C7_zero_max_passthrough 32 4 _ (by decide)⟩

/-- Concrete processor for the FIFO-order claim: handler 7 subscribed to type
0, handler 8 to type 1, and two pending batches (oldest first): one type-0
event (tag 100), then one type-1 event (tag 200). -/
def pC1 : Processor :=
  ⟨[[⟨0, 100⟩], [⟨1, 200⟩]], [1, 1], [[7], [8]]⟩

/-- Claim C1 (refuted by the code): `process_events` reads
`events_queue.back()` / `events_size_queue.back()` but `pop()` removes the
front, so with two pending batches it dispatches the newest batch twice and
the oldest never — the trace is `[(8,200), (8,200)]` instead of the
FIFO-order `[(7,100), (8,200)]`. -/
theorem C1_fifo_order_violated :
    (process_events pC1).2 = [(8, 200), (8, 200)]
    ∧ (process_events pC1).2 ≠ [(7, 100), (8, 200)] := by
  decide

/-- Two processors, each with handler 5 on type 0 and handler 6 on type 1. -/
def pC2 : Processor := ⟨[], [], [[5], [6]]⟩

def mC2 : Manager := ⟨0, 0, [], [pC2, pC2]⟩

/-- Claim C2 (refuted by the code, in its exactly-once-dispatch part): two
events are submitted and moved in two separate batches to both processors;
`process_events` on processor 0 then dispatches the second batch twice and
the first never, so the type-0 event (tag 10) — delivered in a batch and
matching handler 5 — is dispatched zero times instead of exactly once. -/
theorem C2_exactly_once_violated :
    ((mprocess (move_to_processors
        (submit (move_to_processors (submit mC2 0 ⟨0, 10⟩)) 0 ⟨1, 20⟩)) 0).2).count
        (5, 10) = 0
    ∧ (mprocess (move_to_processors
        (submit (move_to_processors (submit mC2 0 ⟨0, 10⟩)) 0 ⟨1, 20⟩)) 0).2
        = [(6, 20), (6, 20)] := by
  decide

/-- A processor with handler 5 subscribed to type 0. -/
def pC5 : Processor := ⟨[], [], [[5]]⟩

/-- Claim C5 (refuted by the code): `unsubscribe` iterates
`for (auto grouped_handlers : handlers)` over by-value copies of the slots, so
the member handler table is unchanged — the entry for handler 5 stays in slot
0 (it is `delete`d, leaving a dangling pointer) — and an event of type 0
processed afterwards still invokes handler 5. -/
theorem C5_unsubscribe_violated :
    (unsubscribe 5 pC5).1.handlers = [[5]]
    ∧ (unsubscribe 5 pC5).2 = [5]
    ∧ (process_events (add_events (unsubscribe 5 pC5).1 [⟨0, 42⟩] 1)).2
        = [(5, 42)] := by
  decide

/-- A manager with one processor (one empty handler slot) and no events. -/
def mC6 : Manager := ⟨0, 0, [], [⟨[], [], [[]]⟩]⟩

/-- Claim C6 as stated is false on the code: with zero pending events,
`move_to_processors` is not a no-op — it pushes a zero-event batch onto the
processor's local FIFO. -/
theorem C6_no_op_counterexample :
    move_to_processors mC6 ≠ mC6
    ∧ ((move_to_processors mC6).processors.getD 0 default).events_queue.length
        = 1 := by
  decide

/-- Claim C6 (amended): with zero pending events (`event_count - subtracted`
equal to 0, so the bulk dequeue obtains nothing), `move_to_processors` moves
no events, leaves `subtracted`, `event_count` and the intake queue unchanged —
but it does create one empty batch and pushes it (with count 0) onto every
processor's local FIFO. -/
theorem C6_amended_empty_batch (m : Manager)
    (h : m.event_count - m.subtracted = 0) :
    move_to_processors m
      = { m with processors := m.processors.map (fun p => add_events p [] 0) } := by
  unfold move_to_processors
  rw [h]
  simp [multithreaded_radix, max_val]

theorem C6_amended_empty_batch_witness :
    (mC6.event_count - mC6.subtracted = 0)
    ∧ move_to_processors mC6
        = { mC6 with processors := mC6.processors.map (fun p => add_events p [] 0) } :=
  ⟨by decide, C6_amended_empty_batch mC6 (by decide)⟩

/-- Claim C9: after any sequence of `add_events` / `process_events` calls
from an empty pair of FIFOs, the batch queue and the size queue are the two
projections of the paired history of `add_events` arguments: they have equal
length and the size entry at each position is the count that was passed to
`add_events` together with the batch at that position. -/
theorem C9_queues_aligned (h0 : List (List Nat)) (ops : List POp) :
    (runOps ⟨[], [], h0⟩ ops).events_queue = (runSpec [] ops).map Prod.fst
    ∧ (runOps ⟨[], [], h0⟩ ops).events_size_queue = (runSpec [] ops).map Prod.snd
    ∧ (runOps ⟨[], [], h0⟩ ops).events_queue.length
        = (runOps ⟨[], [], h0⟩ ops).events_size_queue.length := by
  rcases runOps_aligned ops ⟨[], [], h0⟩ [] rfl rfl with ⟨ha, hb⟩
  refine ⟨ha, hb, ?_⟩
  rw [ha, hb, List.length_map, List.length_map]

/-- Claim C10: an event whose type id has no subscribed handlers on the
processor contributes no handler invocation — `handlers[event->get_id()]` is
an empty vector, so the inner dispatch loop runs zero times — and processing
silently continues with the remaining events of the batch; the model is a
total function, so no error is signalled. -/
theorem C10_empty_slot_skipped (hs : List (List Nat)) (pre post : List Ev)
    (e : Ev) (hempty : hs.getD e.eid [] = []) :
    dispatchEvent hs e = []
    ∧ dispatchBatch hs (pre ++ e :: post) (pre ++ e :: post).length
        = dispatchBatch hs pre pre.length ++ dispatchBatch hs post post.length := by
  have h1 : dispatchEvent hs e = [] := by
    unfold dispatchEvent
    rw [hempty]
    rfl
  refine ⟨h1, ?_⟩
  rw [dispatchBatch_flatMap, dispatchBatch_flatMap, dispatchBatch_flatMap]
  rw [List.flatMap_append, List.flatMap_cons, h1]
  simp

theorem C10_empty_slot_skipped_witness :
    (([[9], []] : List (List Nat)).getD (Ev.mk 1 3).eid [] = [])
    ∧ (dispatchEvent [[9], []] (Ev.mk 1 3) = []
      ∧ dispatchBatch [[9], []] ([Ev.mk 0 1] ++ Ev.mk 1 3 :: [Ev.mk 0 2])
            ([Ev.mk 0 1] ++ Ev.mk 1 3 :: [Ev.mk 0 2]).length
          = dispatchBatch [[9], []] [Ev.mk 0 1] [Ev.mk 0 1].length
            ++ dispatchBatch [[9], []] [Ev.mk 0 2] [Ev.mk 0 2].length) :=
  ⟨by decide,
   C10_empty_slot_skipped [[9], []] [Ev.mk 0 1] [Ev.mk 0 2] (Ev.mk 1 3) (by decide)⟩

theorem getD_map_of_lt {β γ : Type _} (f : β → γ) (l : List β) (i : Nat)
    (d : γ) (d' : β) (h : i < l.length) :
    (l.map f).getD i d = f (l.getD i d') := by
  simp [List.getD_eq_getElem?_getD, List.getElem?_map, List.getElem?_eq_getElem h]

/-- Claim C8: on a processor with an empty slot for type `eid`, subscribing
two distinct handlers `h1` then `h2` to that type, submitting one event of
that type, moving it to the processors and processing it on that processor
invokes each handler exactly once, in subscription order. -/
theorem C8_two_handlers_once_in_order (m : Manager) (pid eid h1 h2 : Nat)
    (e : Ev)
    (hpid : pid < m.processors.length)
    (heid : eid < (m.processors.getD pid default).handlers.length)
    (hslot : (m.processors.getD pid default).handlers.getD eid [] = [])
    (hq : (m.processors.getD pid default).events_queue = [])
    (hqs : (m.processors.getD pid default).events_size_queue = [])
    (hpend : m.event_count = m.subtracted)
    (hintake : m.event_queue = [])
    (hie : e.eid = eid)
    (hw : m.event_count < 2 ^ 64)
    (hne : h1 ≠ h2) :
    (mprocess (move_to_processors (submit
        (msubscribe (msubscribe m pid eid h1) pid eid h2) pid e)) pid).2
      = [(h1, e.tag), (h2, e.tag)]
    ∧ ((mprocess (move_to_processors (submit
        (msubscribe (msubscribe m pid eid h1) pid eid h2) pid e)) pid).2).count
        (h1, e.tag) = 1
    ∧ ((mprocess (move_to_processors (submit
        (msubscribe (msubscribe m pid eid h1) pid eid h2) pid e)) pid).2).count
        (h2, e.tag) = 1 := by
  -- the processor addressed by the claim, before and after the subscriptions
  have hsub1h : (subscribe eid h1 (m.processors.getD pid default)).handlers
      = (m.processors.getD pid default).handlers.set eid [h1] := by
    unfold subscribe
    rw [hslot]
    rfl
  have hsub2h : (subscribe eid h2 (subscribe eid h1
      (m.processors.getD pid default))).handlers
      = (m.processors.getD pid default).handlers.set eid [h1, h2] := by
    show ((subscribe eid h1 (m.processors.getD pid default)).handlers.set eid
        ((subscribe eid h1 (m.processors.getD pid default)).handlers.getD eid []
          ++ [h2])) = _
    rw [hsub1h, getD_set_self heid, List.set_set]
    rfl
  -- the two subscriptions update slot pid once
  have hm2 : (msubscribe (msubscribe m pid eid h1) pid eid h2).processors
      = m.processors.set pid (subscribe eid h2 (subscribe eid h1
          (m.processors.getD pid default))) := by
    show (m.processors.set pid (subscribe eid h1 (m.processors.getD pid default))).set
        pid (subscribe eid h2 ((m.processors.set pid
          (subscribe eid h1 (m.processors.getD pid default))).getD pid default)) = _
    rw [getD_set_self hpid, List.set_set]
  -- the submitted event gets sequence number `m.event_count`
  have hm3q : (submit (msubscribe (msubscribe m pid eid h1) pid eid h2) pid
      e).event_queue = [(e, m.event_count)] := by
    show (msubscribe (msubscribe m pid eid h1) pid eid h2).event_queue
        ++ [(e, (msubscribe (msubscribe m pid eid h1) pid eid h2).event_count)] = _
    show m.event_queue ++ [(e, m.event_count)] = _
    rw [hintake]
    rfl
  -- the pipeline orders the single-event drain as `[e]`
  have hradix : multithreaded_radix 32 4 [(e, m.event_count)] = [e] := by
    rw [multithreaded_radix_eq [(e, m.event_count)] (by
      intro p hp
      have hp' : p = (e, m.event_count) := by simpa using hp
      rw [hp']
      exact hw)]
    rfl
  -- `move_to_processors` hands the one-event batch to every processor
  have hmove : (move_to_processors (submit
      (msubscribe (msubscribe m pid eid h1) pid eid h2) pid e)).processors
      = (m.processors.set pid (subscribe eid h2 (subscribe eid h1
          (m.processors.getD pid default)))).map (fun p => add_events p [e] 1) := by
    unfold move_to_processors
    rw [hm3q]
    rw [show (submit (msubscribe (msubscribe m pid eid h1) pid eid h2) pid
        e).processors
        = (msubscribe (msubscribe m pid eid h1) pid eid h2).processors from rfl]
    rw [hm2]
    rw [show (submit (msubscribe (msubscribe m pid eid h1) pid eid h2) pid
        e).event_count = m.event_count + 1 from rfl]
    rw [show (submit (msubscribe (msubscribe m pid eid h1) pid eid h2) pid
        e).subtracted = m.subtracted from rfl]
    rw [show m.event_count + 1 - m.subtracted = 1 by omega]
    simp [hradix]
  -- process on `pid`: the processor is the subscribed one plus the batch
  have hgot : (move_to_processors (submit
      (msubscribe (msubscribe m pid eid h1) pid eid h2) pid
        e)).processors.getD pid default
      = add_events (subscribe eid h2 (subscribe eid h1
          (m.processors.getD pid default))) [e] 1 := by
    rw [hmove]
    rw [getD_map_of_lt (fun p => add_events p [e] 1) _ pid default default (by
      rw [List.length_set]
      exact hpid)]
    rw [getD_set_self hpid]
  have htrace : (mprocess (move_to_processors (submit
      (msubscribe (msubscribe m pid eid h1) pid eid h2) pid e)) pid).2
      = [(h1, e.tag), (h2, e.tag)] := by
    show (process_events ((move_to_processors (submit
        (msubscribe (msubscribe m pid eid h1) pid eid h2) pid
          e)).processors.getD pid default)).2 = _
    rw [hgot]
    unfold process_events
    have hqadd : (add_events (subscribe eid h2 (subscribe eid h1
        (m.processors.getD pid default))) [e] 1).events_queue = [[e]] := by
      show (subscribe eid h2 (subscribe eid h1
          (m.processors.getD pid default))).events_queue ++ [[e]] = _
      show (m.processors.getD pid default).events_queue ++ [[e]] = _
      rw [hq]
      rfl
    have hsadd : (add_events (subscribe eid h2 (subscribe eid h1
        (m.processors.getD pid default))) [e] 1).events_size_queue = [1] := by
      show (subscribe eid h2 (subscribe eid h1
          (m.processors.getD pid default))).events_size_queue ++ [1] = _
      show (m.processors.getD pid default).events_size_queue ++ [1] = _
      rw [hqs]
      rfl
    have hhadd : (add_events (subscribe eid h2 (subscribe eid h1
        (m.processors.getD pid default))) [e] 1).handlers
        = (m.processors.getD pid default).handlers.set eid [h1, h2] := by
      show (subscribe eid h2 (subscribe eid h1
          (m.processors.getD pid default))).handlers = _
      exact hsub2h
    rw [hqadd, hsadd, hhadd]
    show dispatchBatch ((m.processors.getD pid default).handlers.set eid [h1, h2])
        ([[e]].getLastD []) ([1].getLastD 0) ++ [] = _
    rw [List.append_nil]
    show dispatchEvent ((m.processors.getD pid default).handlers.set eid [h1, h2])
        e ++ [] = _
    rw [List.append_nil]
    unfold dispatchEvent
    rw [hie, getD_set_self heid]
    rfl
  refine ⟨htrace, ?_, ?_⟩
  · rw [htrace]
    have hd : (h2, e.tag) ≠ (h1, e.tag) := by
      intro hcontra
      injection hcontra with ha hb
      exact hne ha.symm
    simp [List.count_cons, hd]
  · rw [htrace]
    have hd : (h1, e.tag) ≠ (h2, e.tag) := by
      intro hcontra
      injection hcontra with ha hb
      exact hne ha
    simp [List.count_cons, hd]

/-- One fresh processor with two (empty) handler slots. -/
def mC8 : Manager := ⟨0, 0, [], [⟨[], [], [[], []]⟩]⟩

theorem C8_two_handlers_once_in_order_witness :
    (0 < mC8.processors.length ∧ (7 : Nat) ≠ 8)
    ∧ ((mprocess (move_to_processors (submit
          (msubscribe (msubscribe mC8 0 1 7) 0 1 8) 0 ⟨1, 99⟩)) 0).2
        = [(7, 99), (8, 99)]
      ∧ ((mprocess (move_to_processors (submit
          (msubscribe (msubscribe mC8 0 1 7) 0 1 8) 0 ⟨1, 99⟩)) 0).2).count
          (7, 99) = 1
      ∧ ((mprocess (move_to_processors (submit
          (msubscribe (msubscribe mC8 0 1 7) 0 1 8) 0 ⟨1, 99⟩)) 0).2).count
          (8, 99) = 1) :=
  ⟨⟨by decide, by decide⟩,
   C8_two_handlers_once_in_order mC8 0 1 7 8 ⟨1, 99⟩ (by decide) (by decide)
     (by decide) (by decide) (by decide) (by decide) (by decide) (by decide)
     (by decide) (by decide)⟩

end EventBus
